import Mathlib

/-
Verification of the databased key-value store against its specification.

The development shallowly embeds the Rust source:
  * Rust `String` values are modeled as their UTF-8 byte sequences (`List Nat`,
    each element a byte); `String::from_utf8` becomes a validity check that
    returns the byte list unchanged.
  * `u8`/`u16`/`u32`/`usize` values are modeled as `Nat` with explicit masking
    or `% 2 ^ w` exactly where the Rust code can wrap or truncate.
  * `i64` timestamps are modeled by their 64-bit unsigned bit pattern, which is
    what `op_to_bytes` serializes (`*timestamp as usize`) and `op_from_bytes`
    recovers (`as i64`); the two casts are mutually inverse bijections.
  * A function that can panic (index out of bounds, arithmetic overflow in a
    debug build) returns `Option`, with `none` marking the panic; a function
    returning `Result` returns `Except`.
  * Error payload strings of the Rust enums are abstracted into one
    constructor per distinct message at each call site.
All loops are written as structurally recursive functions so that every
definition evaluates inside the kernel.
-/

deriving instance DecidableEq for Except

namespace Databased

/-! ## Record codec: constants (src/bytecode_serializer.rs) -/

def START_MAGIC : Nat := 0xDEFEC8ED

def END_MAGIC : Nat := 0xB00B1E5

def PROTOCOL_VERSION : Nat := 0

def PROTOCOL_BITMASK : Nat := 0b11110000

def OPERATION_BITMASK : Nat := 0b00001111

def SET_OPERATION : Nat := 0b00000001

def GET_OPERATION : Nat := 0b00000010

def DEL_OPERATION : Nat := 0b00000100

def CRC_POLYNOMIAL : Nat := 0xedb88320

/-- Little-endian byte decomposition of a `u32`, as `u32::to_le_bytes`. -/
def u32_to_le (n : Nat) : List Nat :=
  [n % 256, n / 256 % 256, n / 65536 % 256, n / 16777216 % 256]

/-- Reassembly of a `u32` from its little-endian bytes, as `u32::from_le_bytes`. -/
def u32_from_le (b0 b1 b2 b3 : Nat) : Nat :=
  b0 + 256 * b1 + 65536 * b2 + 16777216 * b3

def START_MAGIC_BYTES : List Nat := u32_to_le START_MAGIC

def END_MAGIC_BYTES : List Nat := u32_to_le END_MAGIC

/-! ## CRC-32 (lazy_static LOOKUP_CRC_TABLE and calculate_crc32) -/

/-- One inner step of the table construction: `if crc & 1 == 1 { poly ^ (crc >> 1) } else { crc >> 1 }`. -/
def crcStep (crc : Nat) : Nat :=
  if crc &&& 1 = 1 then CRC_POLYNOMIAL ^^^ (crc >>> 1) else crc >>> 1

/-- Entry `i` of the lookup table: eight `crcStep` iterations starting from `i`. -/
def crcEntry (i : Nat) : Nat :=
  crcStep (crcStep (crcStep (crcStep (crcStep (crcStep (crcStep (crcStep i)))))))

def LOOKUP_CRC_TABLE : List Nat := (List.range 256).map crcEntry

/-- One step of the CRC fold: `crc = TABLE[(crc ^ byte) & 0xff] ^ (crc >> 8)`. -/
def crcFoldStep (crc byte : Nat) : Nat :=
  LOOKUP_CRC_TABLE.getD ((crc ^^^ byte) &&& 0xff) 0 ^^^ (crc >>> 8)

/-- CRC-32/IEEE over a byte sequence (`BytecodeSerializer::calculate_crc32`). -/
def calculate_crc32 (bytes : List Nat) : Nat :=
  (bytes.foldl crcFoldStep 0xffffffff) ^^^ 0xffffffff

/-! ## Varint encoding (BytecodeSerializer::convert_to_varint) -/

/-- Loop body of `convert_to_varint`: emit 7 payload bits per byte, high bit set
on every byte except the last.  The extra fuel argument makes the loop
structurally recursive; one unit of fuel per iteration, and `fuel = number`
always suffices because the number shrinks every round. -/
def ctvLoop : Nat → Nat → List Nat
  | _, 0 => []
  | number, fuel + 1 =>
    if number = 0 then []
    else
      let byte := number &&& 0b01111111
      let number2 := number >>> 7
      if number2 = 0 then [byte] else (byte ||| 0b10000000) :: ctvLoop number2 fuel

def convert_to_varint (number : Nat) : List Nat :=
  if number = 0 then [0] else ctvLoop number number

/-! ## Varint decoding (BytecodeSerializer::convert_from_varint)

The Rust loop reads `bytes[index]` (an out-of-bounds read panics) and executes
`result |= ((byte & 0x7f) as usize) << shift` with no cap on `shift`; in a
debug build a shift amount of 64 or more panics.  Both panics are modeled as
`none`.  The shifted value is truncated to 64 bits, as `usize` shifts are. -/

def convert_from_varint_go : List Nat → Nat → Nat → Nat → Option (Nat × Nat)
  | [], _, _, _ => none
  | byte :: rest, shift, result, index =>
    if 64 ≤ shift then none
    else
      let result2 := result ||| ((byte &&& 0b01111111) <<< shift) % 18446744073709551616
      if byte &&& 0b10000000 = 0 then some (result2, index + 1)
      else convert_from_varint_go rest (shift + 7) result2 (index + 1)

def convert_from_varint (bytes : List Nat) : Option (Nat × Nat) :=
  convert_from_varint_go bytes 0 0 0

/-! ## UTF-8 validity (model of Rust String::from_utf8 acceptance) -/

/-- Continuation byte test: `0x80 ≤ b ≤ 0xBF`. -/
def contByte (b : Nat) : Bool := 128 ≤ b && b ≤ 191

/-- UTF-8 validity of a byte sequence, following the table used by the Rust
standard library (excludes overlong forms, surrogates and values above
U+10FFFF).  `String::from_utf8` succeeds exactly on valid sequences. -/
def isValidUtf8 : List Nat → Bool
  | [] => true
  | b :: rest =>
    if b ≤ 127 then isValidUtf8 rest else
    match rest with
    | [] => false
    | c1 :: rest1 =>
      if 194 ≤ b && b ≤ 223 then contByte c1 && isValidUtf8 rest1 else
      match rest1 with
      | [] => false
      | c2 :: rest2 =>
        if b = 224 then (160 ≤ c1 && c1 ≤ 191) && contByte c2 && isValidUtf8 rest2 else
        if (225 ≤ b && b ≤ 236) || b = 238 || b = 239 then
          contByte c1 && contByte c2 && isValidUtf8 rest2 else
        if b = 237 then (128 ≤ c1 && c1 ≤ 159) && contByte c2 && isValidUtf8 rest2 else
        match rest2 with
        | [] => false
        | c3 :: rest3 =>
          if b = 240 then (144 ≤ c1 && c1 ≤ 191) && contByte c2 && contByte c3 && isValidUtf8 rest3 else
          if 241 ≤ b && b ≤ 243 then contByte c1 && contByte c2 && contByte c3 && isValidUtf8 rest3 else
          if b = 244 then (128 ≤ c1 && c1 ≤ 143) && contByte c2 && contByte c3 && isValidUtf8 rest3 else
          false

/-! ## Operations (src/operation.rs) -/

/-- Tagged operation.  Timestamps are 64-bit patterns, strings are byte lists. -/
inductive Op where
  | SET (timestamp : Nat) (key : List Nat) (value : List Nat)
  | GET (timestamp : Nat) (key : List Nat)
  | DEL (timestamp : Nat) (key : List Nat)
deriving DecidableEq, Repr

def Op.isGET : Op → Bool
  | .GET _ _ => true
  | _ => false

def Op.isSET : Op → Bool
  | .SET _ _ _ => true
  | _ => false

def Op.isDEL : Op → Bool
  | .DEL _ _ => true
  | _ => false

/-! ## Encoder (BytecodeSerializer::op_to_bytes)

Each arm mirrors the corresponding `match` arm of the source: start magic,
header byte, varint timestamp, varint key length and key bytes (for SET also
varint value length and value bytes), then the CRC over `bytes[4..]`, its
varint-encoded length, and the end magic. -/

def op_to_bytes : Op → List Nat
  | .GET timestamp key =>
    let bytes := START_MAGIC_BYTES
    let header := 0 ||| PROTOCOL_VERSION ||| GET_OPERATION
    let bytes := bytes ++ [header]
    let bytes := bytes ++ convert_to_varint timestamp
    let bytes := bytes ++ convert_to_varint key.length ++ key
    let crc := calculate_crc32 (bytes.drop 4)
    let crc_bytes := u32_to_le crc
    let bytes := bytes ++ convert_to_varint crc_bytes.length ++ crc_bytes
    bytes ++ END_MAGIC_BYTES
  | .DEL timestamp key =>
    let bytes := START_MAGIC_BYTES
    let header := 0 ||| PROTOCOL_VERSION ||| DEL_OPERATION
    let bytes := bytes ++ [header]
    let bytes := bytes ++ convert_to_varint timestamp
    let bytes := bytes ++ convert_to_varint key.length ++ key
    let crc := calculate_crc32 (bytes.drop 4)
    let crc_bytes := u32_to_le crc
    let bytes := bytes ++ convert_to_varint crc_bytes.length ++ crc_bytes
    bytes ++ END_MAGIC_BYTES
  | .SET timestamp key value =>
    let bytes := START_MAGIC_BYTES
    let header := 0 ||| (PROTOCOL_VERSION <<< 4) ||| SET_OPERATION
    let bytes := bytes ++ [header]
    let bytes := bytes ++ convert_to_varint timestamp
    let bytes := bytes ++ convert_to_varint key.length ++ key
    let bytes := bytes ++ convert_to_varint value.length ++ value
    let crc := calculate_crc32 (bytes.drop 4)
    let crc_bytes := u32_to_le crc
    let bytes := bytes ++ convert_to_varint crc_bytes.length ++ crc_bytes
    bytes ++ END_MAGIC_BYTES

/-! ## Decoder (BytecodeSerializer::op_from_bytes) -/

/-- Abstraction of `BytecodeSerializerError::SerializationError(msg)`, one
constructor per distinct message string in the source. -/
inductive BytecodeSerializerError where
  | noHeader
  | invalidKey
  | invalidValue
  | invalidCrc
  | invalidOperation
deriving DecidableEq, Repr

/-- Model of `BytecodeSerializer::validate_crc32`. -/
def validate_crc32 (bytes : List Nat) (crc : Nat) :
    Except BytecodeSerializerError Unit :=
  if crc ≠ calculate_crc32 bytes then .error .invalidCrc else .ok ()

/-- The CRC-reading epilogue that the source repeats verbatim in the SET, GET
and DEL arms of `op_from_bytes`: read the `crc_len` varint, slice
`bytes[index+idx .. index+idx+crc_len]` (a slice past the end panics), convert
it via `try_into` to a 4-byte array (`Err` if the length is not 4), and
validate the CRC over `bytes[..index]`. -/
def read_crc_finish (bytes : List Nat) (index : Nat) (op : Op) :
    Option (Except BytecodeSerializerError Op) :=
  match convert_from_varint (bytes.drop index) with
  | none => none
  | some (crc_len, idx) =>
    if bytes.length < index + idx + crc_len then none
    else
      match (bytes.drop (index + idx)).take crc_len with
      | [b0, b1, b2, b3] =>
        let crc := u32_from_le b0 b1 b2 b3
        match validate_crc32 (bytes.take index) crc with
        | .error e => some (.error e)
        | .ok _ => some (.ok op)
      | _ => some (.error .invalidCrc)

/-- Model of `BytecodeSerializer::op_from_bytes` on a frame with the magics
already stripped.  `none` is a panic (out-of-bounds slice or index, or an
overlarge shift inside the varint decoder); `some (.error e)` is `Err(e)`. -/
def op_from_bytes (bytes : List Nat) : Option (Except BytecodeSerializerError Op) :=
  match bytes.head? with
  | none => some (.error .noHeader)
  | some header =>
    let operation := header &&& OPERATION_BITMASK
    match convert_from_varint (bytes.drop 1) with
    | none => none
    | some (timestamp, idx0) =>
      let index := 1 + idx0
      match convert_from_varint (bytes.drop index) with
      | none => none
      | some (key_len, idx1) =>
        if bytes.length < index + idx1 + key_len then none
        else
          let key := (bytes.drop (index + idx1)).take key_len
          if isValidUtf8 key = false then some (.error .invalidKey)
          else
            let index1 := index + idx1 + key_len
            if operation = SET_OPERATION then
              match convert_from_varint (bytes.drop index1) with
              | none => none
              | some (value_len, idx2) =>
                if bytes.length < index1 + idx2 + value_len then none
                else
                  let value := (bytes.drop (index1 + idx2)).take value_len
                  if isValidUtf8 value = false then some (.error .invalidValue)
                  else
                    read_crc_finish bytes (index1 + idx2 + value_len)
                      (.SET timestamp key value)
            else if operation = GET_OPERATION then
              read_crc_finish bytes index1 (.GET timestamp key)
            else if operation = DEL_OPERATION then
              read_crc_finish bytes index1 (.DEL timestamp key)
            else some (.error .invalidOperation)

/-! ## Chunk splitter (BytecodeSerializer::split_to_chunks) -/

/-- Loop of `split_to_chunks`.  The `suffix` argument is always
`bytes.drop index`; recursing on it keeps the definition structural.  The loop
guard `index <= bytes.len() - 4` (with `bytes.len() ≥ 4`) is equivalent to the
suffix having at least 4 elements.  Emitting `bytes[start..index]` with
`start > index` would panic, modeled by `none` (that branch is unreachable). -/
def split_go (bytes : List Nat) : List Nat → Nat → Nat → List (List Nat) →
    Option (List (List Nat))
  | [], _, _, chunks => some chunks
  | b0 :: rest1, index, start, chunks =>
    match rest1 with
    | b1 :: b2 :: b3 :: _ =>
      let window := [b0, b1, b2, b3]
      let start1 := if window = START_MAGIC_BYTES then index + 4 else start
      if window = END_MAGIC_BYTES ∧ start1 ≠ 0 then
        if index < start1 then none
        else split_go bytes rest1 (index + 1) start1
          (chunks ++ [(bytes.drop start1).take (index - start1)])
      else split_go bytes rest1 (index + 1) start1 chunks
    | _ => some chunks

/-- Model of `BytecodeSerializer::split_to_chunks`.  An empty input returns no
chunks; on inputs of length 1 to 3 the expression `bytes.len() - 4` in the
loop bound underflows `usize`, which panics in a debug build (and in a release
build wraps, after which the slice `bytes[index..index+4]` panics); both are
modeled by `none`. -/
def split_to_chunks (bytes : List Nat) : Option (List (List Nat)) :=
  if bytes.length = 0 then some []
  else if bytes.length < 4 then none
  else split_go bytes bytes 0 0 []

/-- The payload of a frame: the bytes strictly between START_MAGIC and
END_MAGIC, i.e. the frame with its first four and last four bytes removed. -/
def stripFrame (l : List Nat) : List Nat :=
  (l.drop 4).take ((l.drop 4).length - 4)

/-- A full frame around a payload, as laid out by the encoder. -/
def frameOf (payload : List Nat) : List Nat :=
  START_MAGIC_BYTES ++ payload ++ END_MAGIC_BYTES

/-- Concatenation of complete frames, as a WAL segment holds them. -/
def framesConcat (payloads : List (List Nat)) : List Nat :=
  (payloads.map frameOf).flatten

/-- Decidable check that no window of four consecutive bytes inside `p` equals
either magic sequence. -/
def magicFree (p : List Nat) : Bool :=
  (List.range p.length).all fun k =>
    decide ((p.drop k).take 4 ≠ START_MAGIC_BYTES) &&
    decide ((p.drop k).take 4 ≠ END_MAGIC_BYTES)

/-! ## Lexer tokens and parser (src/parser.rs) -/

inductive Token where
  | SET
  | GET
  | DEL
  | AND
  | TO
  | LITERAL (s : List Nat)
  | EOF
deriving DecidableEq, Repr

inductive OpType where
  | SET
  | GET
  | DEL
deriving DecidableEq, Repr

/-- Builder for one operation (src/operation.rs, `OpBuilder`). -/
structure OpBuilder where
  timestamp : Nat
  op_type : Option OpType
  key : Option (List Nat)
  value : Option (List Nat)
deriving DecidableEq, Repr

/-- `OpBuilder::new` sets the timestamp to 0 and clears the rest. -/
def OpBuilder.new : OpBuilder :=
  { timestamp := 0, op_type := none, key := none, value := none }

def OpBuilder.set_op_type (b : OpBuilder) (t : OpType) : OpBuilder :=
  { b with op_type := some t }

def OpBuilder.set_key (b : OpBuilder) (k : List Nat) : OpBuilder :=
  { b with key := some k }

def OpBuilder.set_value (b : OpBuilder) (v : List Nat) : OpBuilder :=
  { b with value := some v }

/-- `OpBuilder::build`: SET needs key and value, GET/DEL need a key. -/
def OpBuilder.build (b : OpBuilder) : Option Op :=
  match b.op_type with
  | some .SET =>
    match b.key, b.value with
    | some k, some v => some (.SET b.timestamp k v)
    | _, _ => none
  | some .GET =>
    match b.key with
    | some k => some (.GET b.timestamp k)
    | none => none
  | some .DEL =>
    match b.key with
    | some k => some (.DEL b.timestamp k)
    | none => none
  | none => none

inductive ParserStates where
  | Start
  | Set
  | Get
  | Del
  | To
  | Key
  | Value
deriving DecidableEq, Repr

/-- Abstraction of `MemoryLayerErrors::GenericError(msg)`, one constructor per
distinct message string used by the parser. -/
inductive MemoryLayerErrors where
  | invalidOperation
  | invalidValue
  | invalidKey
  | noValidOperations
deriving DecidableEq, Repr

structure StateMachine where
  state : ParserStates
  op_builder : OpBuilder
deriving DecidableEq, Repr

def StateMachine.new : StateMachine :=
  { state := .Start, op_builder := OpBuilder.new }

/-- Model of `StateMachine::process`; the `&mut self` update becomes a
returned machine. -/
def StateMachine.process (sm : StateMachine) (token : Token) :
    Except MemoryLayerErrors StateMachine :=
  match sm.state with
  | .Start =>
    match token with
    | .SET => .ok { sm with op_builder := sm.op_builder.set_op_type .SET, state := .Set }
    | .GET => .ok { sm with op_builder := sm.op_builder.set_op_type .GET, state := .Get }
    | .DEL => .ok { sm with op_builder := sm.op_builder.set_op_type .DEL, state := .Del }
    | _ => .error .invalidOperation
  | .Key =>
    match token with
    | .TO => .ok { sm with state := .To }
    | .AND => .ok { sm with op_builder := OpBuilder.new, state := .Start }
    | .EOF => .ok { sm with state := .Start }
    | _ => .error .invalidOperation
  | .To =>
    match token with
    | .LITERAL value => .ok { sm with op_builder := sm.op_builder.set_value value, state := .Value }
    | _ => .error .invalidValue
  | .Value =>
    match token with
    | .AND => .ok { sm with op_builder := OpBuilder.new, state := .Start }
    | .EOF => .ok { sm with state := .Start }
    | _ => .error .invalidOperation
  | .Set | .Get | .Del =>
    match token with
    | .LITERAL key => .ok { sm with op_builder := sm.op_builder.set_key key, state := .Key }
    | _ => .error .invalidKey

def StateMachine.get_operation (sm : StateMachine) : Option Op :=
  sm.op_builder.build

/-- The loop body of `Parser::parse`: process each token, and after each token
push the operation if the builder can produce one. -/
def parse_loop : List Token → StateMachine → List Op →
    Except MemoryLayerErrors (List Op)
  | [], _, operations => .ok operations
  | t :: ts, sm, operations =>
    match sm.process t with
    | .error e => .error e
    | .ok sm1 =>
      match sm1.get_operation with
      | some op => parse_loop ts sm1 (operations ++ [op])
      | none => parse_loop ts sm1 operations

/-- Model of `Parser::parse` from the token stream onward (the lexer turns one
input line into whitespace-separated tokens). -/
def parse (tokens : List Token) : Except MemoryLayerErrors (List Op) :=
  match parse_loop tokens StateMachine.new [] with
  | .error e => .error e
  | .ok operations =>
    if operations.isEmpty then .error .noValidOperations else .ok operations

/-! ## The request grammar of the specification -/

/-- One statement of the grammar: SET key TO value, GET key, or DEL key,
with key and value arbitrary literal (non-keyword) tokens. -/
inductive Statement where
  | set (key value : List Nat)
  | get (key : List Nat)
  | del (key : List Nat)
deriving DecidableEq, Repr

def Statement.tokens : Statement → List Token
  | .set k v => [.SET, .LITERAL k, .TO, .LITERAL v]
  | .get k => [.GET, .LITERAL k]
  | .del k => [.DEL, .LITERAL k]

/-- The operation a statement denotes (the parser stamps timestamp 0). -/
def Statement.op : Statement → Op
  | .set k v => .SET 0 k v
  | .get k => .GET 0 k
  | .del k => .DEL 0 k

def requestTokensTail : List Statement → List Token
  | [] => []
  | s :: rest => Token.AND :: s.tokens ++ requestTokensTail rest

/-- Token stream of a request: statements separated by AND. -/
def requestTokens : List Statement → List Token
  | [] => []
  | s :: rest => s.tokens ++ requestTokensTail rest

/-! ## WAL service loop (src/log.rs, WAL::run) -/

/-- Byte sequences handed to `io_controller.write` by the `WAL::run` loop, in
order, for a given sequence of operations received from the channel.  A GET
hits the `continue` arm and produces nothing; any other operation is
serialized with `op.into_bytes()` (= `op_to_bytes`) and written. -/
def WAL_run_writes : List Op → List (List Nat)
  | [] => []
  | op :: rest =>
    match op with
    | .GET _ _ => WAL_run_writes rest
    | _ => op_to_bytes op :: WAL_run_writes rest

/-! ## WAL file manager (src/log.rs, WALFileManager) -/

/-- Abstraction of `WALError` (io-backed write/read errors). -/
inductive WALError where
  | WriteError
  | ReadError
deriving DecidableEq, Repr

/-- The WAL directory: an association list from file name (byte list) to file
content, most recently created first. -/
structure FileSys where
  files : List (List Nat × List Nat)
deriving DecidableEq, Repr

def FileSys.lookup (fs : FileSys) (name : List Nat) : Option (List Nat) :=
  match fs.files.find? (fun e => e.1 = name) with
  | some e => some e.2
  | none => none

/-- `File::create`: create (truncate) a file with empty content. -/
def FileSys.create (fs : FileSys) (name : List Nat) : FileSys :=
  { files := (name, []) :: fs.files }

/-- An open file handle, remembering which options opened it
(`File::options().read(true).write(true)` versus read-only `File::open`). -/
structure FileHandle where
  name : List Nat
  readable : Bool
  writable : Bool
deriving DecidableEq, Repr

/-- Decimal digits of a number, fuel-driven (`fuel = n` always suffices). -/
def decimalBytesLoop : Nat → Nat → List Nat
  | _, 0 => []
  | n, fuel + 1 =>
    if n = 0 then [] else decimalBytesLoop (n / 10) fuel ++ [48 + n % 10]

/-- ASCII decimal representation of a `Nat`, as `format!` prints it. -/
def decimalBytes (n : Nat) : List Nat :=
  if n = 0 then [48] else decimalBytesLoop n n

/-- File name `wal_<timestamp>` built by `format!("wal_{}", timestamp)`;
bytes 119 97 108 95 spell "wal_". -/
def walFileName (timestamp : Nat) : List Nat :=
  [119, 97, 108, 95] ++ decimalBytes timestamp

/-- Lexicographic byte-wise comparison, the order `Vec<PathBuf>::sort` uses
for names inside one directory. -/
def bytesLe : List Nat → List Nat → Bool
  | [], _ => true
  | _ :: _, [] => false
  | a :: as, b :: bs => if a < b then true else if b < a then false else bytesLe as bs

def insertSorted (x : List Nat) : List (List Nat) → List (List Nat)
  | [] => [x]
  | y :: ys => if bytesLe x y then x :: y :: ys else y :: insertSorted x ys

/-- Ascending sort of file names (model of `wal_dir_files.sort()`). -/
def sortBytes : List (List Nat) → List (List Nat)
  | [] => []
  | x :: xs => insertSorted x (sortBytes xs)

structure WALFileManager where
  wal_dir_files : List (List Nat)
  file_size : Nat
  latest_file : List Nat
deriving DecidableEq, Repr

/-- Model of `WALFileManager::new`: enumerate the directory; if empty create
`wal_<now>` as the tail, otherwise sort the names and take the greatest. -/
def WALFileManager.new (fs : FileSys) (file_size : Nat) (now : Nat) :
    WALFileManager × FileSys :=
  let wal_dir_files := fs.files.map (fun e => e.1)
  if wal_dir_files.isEmpty then
    let file_name := walFileName now
    ({ wal_dir_files := [file_name], file_size := file_size, latest_file := file_name },
      fs.create file_name)
  else
    let sorted := sortBytes wal_dir_files
    ({ wal_dir_files := sorted, file_size := file_size,
        latest_file := (sorted.getLast?).getD [] }, fs)

def WALFileManager.get_latest_file (m : WALFileManager) : List Nat :=
  m.latest_file

/-- Model of `WALFileManager::rotate`: create `wal_<now>` and push it onto
`wal_dir_files`.  Note that the source never updates `latest_file`. -/
def WALFileManager.rotate (m : WALFileManager) (fs : FileSys) (now : Nat) :
    WALFileManager × FileSys :=
  let file_name := walFileName now
  let fs2 := fs.create file_name
  ({ m with wal_dir_files := m.wal_dir_files ++ [file_name] }, fs2)

/-- Model of `WALFileManager::size_rotate`: read the on-disk size of
`latest_file`; if it reaches `file_size`, rotate and return a handle opened
read-only by `fs::File::open(&self.latest_file)`; otherwise return `none`. -/
def WALFileManager.size_rotate (m : WALFileManager) (fs : FileSys) (now : Nat) :
    Except WALError (Option FileHandle) × WALFileManager × FileSys :=
  match fs.lookup m.latest_file with
  | none => (.error .WriteError, m, fs)
  | some content =>
    if m.file_size ≤ content.length then
      let rotated := m.rotate fs now
      match rotated.2.lookup rotated.1.latest_file with
      | none => (.error .WriteError, rotated.1, rotated.2)
      | some _ =>
        (.ok (some { name := rotated.1.latest_file, readable := true, writable := false }),
          rotated.1, rotated.2)
    else (.ok none, m, fs)

/-- Model of `WALFileManager::get_file_handler`: open `latest_file` with
read and write options. -/
def WALFileManager.get_file_handler (m : WALFileManager) (fs : FileSys) :
    Except WALError FileHandle :=
  match fs.lookup m.latest_file with
  | some _ => .ok { name := m.latest_file, readable := true, writable := true }
  | none => .error .WriteError

/-! ## WAL recovery (src/wal_io.rs and src/log.rs) -/

/-- Model of `WALio::recover`: read the whole file behind the handle. -/
def WALio.recover (fs : FileSys) (handle : FileHandle) : Except WALError (List Nat) :=
  match fs.lookup handle.name with
  | some content => .ok content
  | none => .error .ReadError

/-- The WAL service state assembled by `WAL::new`: the file manager plus the
single file handle held by the `WALio` controller. -/
structure WALState where
  io_controller_handle : FileHandle
  wal_file_manager : WALFileManager
deriving DecidableEq, Repr

/-- Model of `WAL::new`: build the manager, open `latest_file`, wrap it. -/
def WAL.new (fs : FileSys) (file_size : Nat) (now : Nat) :
    Except WALError (WALState × FileSys) :=
  let built := WALFileManager.new fs file_size now
  match built.1.get_file_handler built.2 with
  | .ok handle => .ok ({ io_controller_handle := handle, wal_file_manager := built.1 }, built.2)
  | .error e => .error e

/-- Model of `WAL::recover`: read the current handle, or an empty buffer on
error.  This is the byte stream `KvStore::regenerate` feeds into
`recover_from_bytes` (chunk splitter, then decoder). -/
def WAL.recover (w : WALState) (fs : FileSys) : List Nat :=
  match WALio.recover fs w.io_controller_handle with
  | .ok buffer => buffer
  | .error _ => []

/-- Modelled from the spec: the recovery byte stream the specification
mandates but the source does not implement (spec sections 4.5 and 9: replay
of all segments, concatenated in ascending filename order, is "not fully
wired in the source").  It concatenates the contents of every WAL segment in
ascending filename order. -/
def spec_recovery_stream (fs : FileSys) : List Nat :=
  ((sortBytes (fs.files.map (fun e => e.1))).map
    (fun name => (fs.lookup name).getD [])).flatten

/-! ## Slotted page header (src/persistent/block.rs) -/

def PAGE_SIZE : Nat := 8192

def HEADER_SIZE : Nat := 12

structure Header where
  checksum : Nat
  flags : Nat
  lower : Nat
  upper : Nat
  linp : Nat
  page_size : Nat
deriving DecidableEq, Repr

/-- `Header::default`: page_size 8192, everything else 0. -/
def Header.default : Header :=
  { checksum := 0, flags := 0, lower := 0, upper := 0, linp := 0, page_size := PAGE_SIZE }

inductive HeaderProps where
  | CHECKSUM (v : Nat)
  | FLAGS (v : Nat)
  | LOWER (v : Nat)
  | UPPER (v : Nat)
  | LINP (v : Nat)

def Header.set (h : Header) : HeaderProps → Header
  | .CHECKSUM v => { h with checksum := v }
  | .FLAGS v => { h with flags := v }
  | .LOWER v => { h with lower := v }
  | .UPPER v => { h with upper := v }
  | .LINP v => { h with linp := v }

/-- Model of `Header::is_space_to_write`: the source computes
`(self.lower - self.upper) as usize` in `u16`; when `lower < upper` (the
normal state of a page) this subtraction underflows, which panics in a debug
build, modeled as `none` (a release build wraps modulo 65536 instead and the
comparison is made against the wrapped value). -/
def Header.is_space_to_write (h : Header) (size : Nat) : Option Bool :=
  if h.lower < h.upper then none
  else
    let diff := h.lower - h.upper
    some (if diff < size then false else true)

/-- The header as initialized at the top of `Block::construct`:
`linp = 12`, `lower = 12`, `upper = PAGE_SIZE - 1 = 8191`. -/
def Block.init_header : Header :=
  ((Header.default.set (.LINP HEADER_SIZE)).set (.LOWER HEADER_SIZE)).set
    (.UPPER (PAGE_SIZE - 1))


/-! ## Derived forms used by the statements and proofs -/

/-- The frame payload (the CRC-covered bytes `bytes[4..]` of the encoder at the
moment the CRC is taken): header byte, varint timestamp, varint key length,
key bytes, and for SET the varint value length and value bytes. -/
def frame_payload : Op → List Nat
  | .GET timestamp key =>
    [0 ||| PROTOCOL_VERSION ||| GET_OPERATION] ++ convert_to_varint timestamp ++
      convert_to_varint key.length ++ key
  | .DEL timestamp key =>
    [0 ||| PROTOCOL_VERSION ||| DEL_OPERATION] ++ convert_to_varint timestamp ++
      convert_to_varint key.length ++ key
  | .SET timestamp key value =>
    [0 ||| (PROTOCOL_VERSION <<< 4) ||| SET_OPERATION] ++ convert_to_varint timestamp ++
      convert_to_varint key.length ++ key ++ convert_to_varint value.length ++ value

/-- Side conditions that every operation built from actual Rust values
satisfies: the timestamp bit pattern and the string lengths fit in 64 bits
(they are `usize`/`u64` values), and the strings are valid UTF-8 (Rust
`String`s are valid by construction). -/
def opWellFormed : Op → Prop
  | .GET timestamp key =>
    timestamp < 2 ^ 64 ∧ key.length < 2 ^ 64 ∧ isValidUtf8 key = true
  | .DEL timestamp key =>
    timestamp < 2 ^ 64 ∧ key.length < 2 ^ 64 ∧ isValidUtf8 key = true
  | .SET timestamp key value =>
    timestamp < 2 ^ 64 ∧ key.length < 2 ^ 64 ∧ isValidUtf8 key = true ∧
      value.length < 2 ^ 64 ∧ isValidUtf8 value = true

instance : ∀ op, Decidable (opWellFormed op) := by
  intro op
  cases op <;> simp only [opWellFormed] <;> infer_instance

/-- The four-byte window the splitter inspects at position `i`. -/
def windowAt (bytes : List Nat) (i : Nat) : List Nat :=
  (bytes.drop i).take 4

/-- A WAL directory with an older nonempty segment `wal_100` and an empty
tail segment `wal_200`, used to evaluate recovery. -/
def twoSegmentDir : FileSys :=
  { files := [(walFileName 100, [1]), (walFileName 200, [])] }

/-- A WAL directory whose only segment `wal_100` holds 5 bytes, used to
evaluate size-based rotation with a 5-byte limit. -/
def tailAtLimitDir : FileSys :=
  { files := [(walFileName 100, [9, 9, 9, 9, 9])] }

/-- The state machine state reached after processing one full statement from
`StateMachine.new`: GET/DEL stop in `Key` with the key recorded, SET stops in
`Value` with key and value recorded. -/
def smEnd : Statement → StateMachine
  | .set k v =>
    { state := .Value,
      op_builder := { timestamp := 0, op_type := some .SET, key := some k, value := some v } }
  | .get k =>
    { state := .Key,
      op_builder := { timestamp := 0, op_type := some .GET, key := some k, value := none } }
  | .del k =>
    { state := .Key,
      op_builder := { timestamp := 0, op_type := some .DEL, key := some k, value := none } }

/-! # Lemmas: bitwise arithmetic -/

theorem lor_mul_pow_eq_add (s : Nat) :
    ∀ a b : Nat, a < 2 ^ s → a ||| b * 2 ^ s = a + b * 2 ^ s := by
  induction s with
  | zero =>
    intro a b ha
    interval_cases a
    simp
  | succ s ih =>
    intro a b ha
    have hd : Nat.bit a.bodd a.div2 = a := Nat.bit_decomp a
    have hb : Nat.bit false (b * 2 ^ s) = b * 2 ^ (s + 1) := by
      simp only [Nat.bit_val, Bool.toNat_false, Nat.add_zero, pow_succ]
      ring
    have hdiv : a.div2 < 2 ^ s := by
      have h2 : (2 : Nat) ^ (s + 1) = 2 ^ s * 2 := pow_succ 2 s
      rw [Nat.div2_val]
      omega
    have ha2 : 2 * a.div2 + a.bodd.toNat = a := by
      conv_rhs => rw [← hd]
      rw [Nat.bit_val]
    calc a ||| b * 2 ^ (s + 1)
        = Nat.bit a.bodd a.div2 ||| Nat.bit false (b * 2 ^ s) := by rw [hd, hb]
      _ = Nat.bit (a.bodd || false) (a.div2 ||| b * 2 ^ s) := Nat.lor_bit ..
      _ = Nat.bit a.bodd (a.div2 + b * 2 ^ s) := by rw [Bool.or_false, ih a.div2 b hdiv]
      _ = a + b * 2 ^ (s + 1) := by
          rw [Nat.bit_val]
          have h2 : (2 : Nat) ^ (s + 1) = 2 ^ s * 2 := pow_succ 2 s
          have h3 : b * 2 ^ (s + 1) = 2 * (b * 2 ^ s) := by rw [h2]; ring
          omega

theorem mul_pow_lor_distrib (s : Nat) :
    ∀ x y : Nat, (x ||| y) * 2 ^ s = x * 2 ^ s ||| y * 2 ^ s := by
  induction s with
  | zero => simp
  | succ s ih =>
    intro x y
    have e : ∀ z : Nat, z * 2 ^ (s + 1) = Nat.bit false (z * 2 ^ s) := by
      intro z
      simp only [Nat.bit_val, Bool.toNat_false, Nat.add_zero, pow_succ]
      ring
    rw [e, e, e, Nat.lor_bit, Bool.or_false, ← ih]

theorem and_127_eq_mod (x : Nat) : x &&& 127 = x % 128 := by
  have h := Nat.and_pow_two_sub_one_eq_mod x 7
  norm_num at h
  exact h

theorem and_255_eq_mod (x : Nat) : x &&& 255 = x % 256 := by
  have h := Nat.and_pow_two_sub_one_eq_mod x 8
  norm_num at h
  exact h

theorem and_128_of_lt (x : Nat) (h : x < 128) : x &&& 128 = 0 := by
  have h7 := Nat.and_two_pow x 7
  norm_num at h7
  rw [h7, Nat.testBit_lt_two_pow (by omega : x < 2 ^ 7)]
  simp

theorem and_128_of_ge (x : Nat) (hlo : 128 ≤ x) (hhi : x < 256) : x &&& 128 = 128 := by
  have h7 := Nat.and_two_pow x 7
  norm_num at h7
  rw [h7, Nat.testBit_to_div_mod]
  have hx1 : x / 2 ^ 7 = 1 := by omega
  rw [hx1]
  simp

theorem lor_128_eq_add (x : Nat) (h : x < 128) : x ||| 128 = x + 128 := by
  have h1 := lor_mul_pow_eq_add 7 x 1 (by norm_num; omega)
  norm_num at h1
  exact h1

/-! # Lemmas: varint round trip -/

theorem convert_from_varint_go_ctvLoop :
    ∀ fuel m s acc index rest, m ≠ 0 → m ≤ fuel → s ≤ 63 → m < 2 ^ (64 - s) →
    convert_from_varint_go (ctvLoop m fuel ++ rest) s acc index =
      some (acc ||| m <<< s, index + (ctvLoop m fuel).length) := by
  intro fuel
  induction fuel with
  | zero => intro m _ _ _ _ hm hf _ _; omega
  | succ fuel ih =>
    intro m s acc index rest hm hf hs hlt
    rw [ctvLoop]
    simp only [if_neg hm]
    have hand : m &&& 127 = m % 128 := and_127_eq_mod m
    have hshr : m >>> 7 = m / 128 := by
      rw [Nat.shiftRight_eq_div_pow]
    by_cases h2 : m >>> 7 = 0
    · have hm128 : m < 128 := by
        rw [hshr] at h2
        omega
      have hmod : m % 128 = m := Nat.mod_eq_of_lt hm128
      rw [if_pos h2]
      simp only [List.cons_append, List.nil_append, convert_from_varint_go]
      have hguard : ¬ 64 ≤ s := by omega
      rw [if_neg hguard]
      have hmm : m &&& 127 &&& 127 = m := by
        rw [hand, hmod, hand, hmod]
      have hcont : m &&& 127 &&& 128 = 0 := by
        rw [hand, hmod]
        exact and_128_of_lt m hm128
      rw [hmm, hcont]
      have hv : (m <<< s) % 18446744073709551616 = m <<< s := by
        apply Nat.mod_eq_of_lt
        rw [Nat.shiftLeft_eq]
        calc m * 2 ^ s < 2 ^ (64 - s) * 2 ^ s :=
              (Nat.mul_lt_mul_right (Nat.two_pow_pos s)).mpr hlt
          _ = 2 ^ 64 := by rw [← pow_add]; congr 1; omega
          _ = 18446744073709551616 := by norm_num
      rw [hv]
      simp
    · have hm128 : 128 ≤ m := by
        rw [hshr] at h2
        omega
      have hs56 : s ≤ 56 := by
        by_contra hc
        have : (2 : Nat) ^ (64 - s) ≤ 2 ^ 7 := Nat.pow_le_pow_right (by norm_num) (by omega)
        norm_num at this
        omega
      simp only [if_neg h2, List.cons_append]
      simp only [convert_from_varint_go]
      have hguard : ¬ 64 ≤ s := by omega
      rw [if_neg hguard]
      have hx : m % 128 < 128 := Nat.mod_lt m (by norm_num)
      have hmask : (m &&& 127 ||| 128) &&& 127 = m % 128 := by
        rw [hand, lor_128_eq_add (m % 128) hx, and_127_eq_mod]
        omega
      have hcont : (m &&& 127 ||| 128) &&& 128 = 128 := by
        rw [hand, lor_128_eq_add (m % 128) hx]
        exact and_128_of_ge _ (by omega) (by omega)
      rw [hmask, hcont]
      rw [if_neg (by norm_num : ¬ (128 : Nat) = 0)]
      have hv : ((m % 128) <<< s) % 18446744073709551616 = (m % 128) <<< s := by
        apply Nat.mod_eq_of_lt
        rw [Nat.shiftLeft_eq]
        calc m % 128 * 2 ^ s < 2 ^ 7 * 2 ^ s :=
              (Nat.mul_lt_mul_right (Nat.two_pow_pos s)).mpr (by omega)
          _ = 2 ^ (7 + s) := by rw [← pow_add]
          _ ≤ 2 ^ 64 := Nat.pow_le_pow_right (by norm_num) (by omega)
          _ ≤ 18446744073709551616 := by norm_num
      rw [hv]
      have hfuel2 : m >>> 7 ≤ fuel := by rw [hshr]; omega
      have hs2 : s + 7 ≤ 63 := by omega
      have hlt2 : m >>> 7 < 2 ^ (64 - (s + 7)) := by
        rw [hshr]
        have he : (64 : Nat) - (s + 7) = 57 - s := by omega
        rw [he, Nat.div_lt_iff_lt_mul (by norm_num : (0 : Nat) < 128)]
        calc m < 2 ^ (64 - s) := hlt
          _ = 2 ^ (57 - s) * 128 := by
              rw [(by norm_num : (128 : Nat) = 2 ^ 7), ← pow_add]
              congr 1
              omega
      rw [ih (m >>> 7) (s + 7) (acc ||| (m % 128) <<< s) (index + 1) rest h2 hfuel2 hs2 hlt2]
      have hval : acc ||| (m % 128) <<< s ||| (m >>> 7) <<< (s + 7) = acc ||| m <<< s := by
        rw [Nat.lor_assoc]
        congr 1
        rw [Nat.shiftLeft_eq, Nat.shiftLeft_eq, Nat.shiftLeft_eq, hshr]
        have he : (2 : Nat) ^ (s + 7) = 2 ^ 7 * 2 ^ s := by
          rw [← pow_add]
          congr 1
          omega
        rw [he, ← Nat.mul_assoc, ← mul_pow_lor_distrib,
          lor_mul_pow_eq_add 7 (m % 128) (m / 128) (by omega)]
        congr 1
        norm_num
        omega
      rw [hval]
      simp only [List.length_cons, Option.some.injEq, Prod.mk.injEq]
      exact ⟨trivial, by omega⟩

theorem convert_from_varint_append (n : Nat) (rest : List Nat) (h : n < 2 ^ 64) :
    convert_from_varint (convert_to_varint n ++ rest) =
      some (n, (convert_to_varint n).length) := by
  by_cases h0 : n = 0
  · subst h0
    simp [convert_to_varint, convert_from_varint, convert_from_varint_go]
  · rw [convert_to_varint, if_neg h0, convert_from_varint]
    have := convert_from_varint_go_ctvLoop n n 0 0 0 rest h0 le_rfl (by norm_num)
      (by norm_num; exact h)
    simpa using this

/-! # Lemmas: CRC bounds and u32 round trip -/

theorem crcStep_lt (c : Nat) (h : c < 2 ^ 32) : crcStep c < 2 ^ 32 := by
  have hsr : c >>> 1 < 2 ^ 32 := by
    rw [Nat.shiftRight_eq_div_pow]
    exact lt_of_le_of_lt (Nat.div_le_self c (2 ^ 1)) h
  unfold crcStep
  split
  · exact Nat.xor_lt_two_pow (by norm_num [CRC_POLYNOMIAL]) hsr
  · exact hsr

theorem crcEntry_lt (i : Nat) (h : i < 2 ^ 32) : crcEntry i < 2 ^ 32 := by
  unfold crcEntry
  iterate 8 apply crcStep_lt
  exact h

theorem table_getD_lt (k : Nat) : LOOKUP_CRC_TABLE.getD k 0 < 2 ^ 32 := by
  unfold LOOKUP_CRC_TABLE
  rw [List.getD_eq_getElem?_getD, List.getElem?_map]
  by_cases hk : k < 256
  · rw [List.getElem?_range hk]
    simp only [Option.map_some', Option.getD_some]
    exact crcEntry_lt k (by omega)
  · have hnone : (List.range 256)[k]? = none := by
      rw [List.getElem?_eq_none_iff]
      simpa using hk
    rw [hnone]
    norm_num

theorem crcFoldStep_lt (c b : Nat) (h : c < 2 ^ 32) : crcFoldStep c b < 2 ^ 32 := by
  unfold crcFoldStep
  refine Nat.xor_lt_two_pow (table_getD_lt _) ?_
  rw [Nat.shiftRight_eq_div_pow]
  exact lt_of_le_of_lt (Nat.div_le_self c (2 ^ 8)) h

theorem crc_foldl_lt (bytes : List Nat) :
    ∀ acc, acc < 2 ^ 32 → bytes.foldl crcFoldStep acc < 2 ^ 32 := by
  induction bytes with
  | nil => intro acc h; simpa using h
  | cons b bs ih =>
    intro acc h
    rw [List.foldl_cons]
    exact ih _ (crcFoldStep_lt _ _ h)

theorem calculate_crc32_lt (bytes : List Nat) : calculate_crc32 bytes < 2 ^ 32 := by
  unfold calculate_crc32
  exact Nat.xor_lt_two_pow (crc_foldl_lt bytes _ (by norm_num)) (by norm_num)

theorem u32_from_to_le (n : Nat) (h : n < 2 ^ 32) :
    u32_from_le (n % 256) (n / 256 % 256) (n / 65536 % 256) (n / 16777216 % 256) = n := by
  unfold u32_from_le
  omega

/-! # Lemmas: list slicing helpers -/

theorem drop_prefix_eq (p r : List Nat) (n : Nat) (h : n = p.length) :
    (p ++ r).drop n = r := by
  subst h
  exact List.drop_left p r

theorem take_prefix_eq (p r : List Nat) (n : Nat) (h : n = p.length) :
    (p ++ r).take n = p := by
  subst h
  exact List.take_left p r

theorem drop4_magic (x : List Nat) : (START_MAGIC_BYTES ++ x).drop 4 = x :=
  drop_prefix_eq _ _ 4 rfl

theorem u32_to_le_length (n : Nat) : (u32_to_le n).length = 4 := rfl

theorem ctv_four : convert_to_varint 4 = [4] := by decide

/-! # Lemmas: encoder shape and frame stripping -/

theorem op_to_bytes_eq (op : Op) :
    op_to_bytes op = START_MAGIC_BYTES ++ (frame_payload op ++ convert_to_varint 4 ++
      u32_to_le (calculate_crc32 (frame_payload op)) ++ END_MAGIC_BYTES) := by
  cases op <;>
    simp [op_to_bytes, frame_payload, drop4_magic, u32_to_le_length, List.append_assoc]

theorem stripFrame_frame (body : List Nat) :
    stripFrame (START_MAGIC_BYTES ++ (body ++ END_MAGIC_BYTES)) = body := by
  unfold stripFrame
  rw [drop4_magic]
  have h4 : END_MAGIC_BYTES.length = 4 := rfl
  have h : (body ++ END_MAGIC_BYTES).length - 4 = body.length := by
    rw [List.length_append, h4]
    omega
  rw [h]
  exact take_prefix_eq body END_MAGIC_BYTES _ rfl

/-! # Lemmas: the CRC trailer of the decoder -/

theorem read_crc_finish_ok (payload : List Nat) (op : Op) :
    read_crc_finish (payload ++ convert_to_varint 4 ++
        u32_to_le (calculate_crc32 payload)) payload.length op = some (.ok op) := by
  have hC := calculate_crc32_lt payload
  have h1 : (payload ++ convert_to_varint 4 ++
      u32_to_le (calculate_crc32 payload)).drop payload.length =
        convert_to_varint 4 ++ u32_to_le (calculate_crc32 payload) := by
    rw [List.append_assoc]
    exact drop_prefix_eq _ _ _ rfl
  have h2 : convert_from_varint ((payload ++ convert_to_varint 4 ++
      u32_to_le (calculate_crc32 payload)).drop payload.length) = some (4, 1) := by
    rw [h1, convert_from_varint_append 4 _ (by norm_num)]
    simp [ctv_four]
  have hlen : (payload ++ convert_to_varint 4 ++
      u32_to_le (calculate_crc32 payload)).length = payload.length + 5 := by
    simp [List.length_append, ctv_four, u32_to_le_length]
  have h3 : (payload ++ convert_to_varint 4 ++
      u32_to_le (calculate_crc32 payload)).drop (payload.length + 1) =
        [calculate_crc32 payload % 256, calculate_crc32 payload / 256 % 256,
          calculate_crc32 payload / 65536 % 256, calculate_crc32 payload / 16777216 % 256] := by
    have hdp := drop_prefix_eq (payload ++ convert_to_varint 4)
      (u32_to_le (calculate_crc32 payload)) (payload.length + 1)
      (by simp [List.length_append, ctv_four])
    rw [hdp]
    rfl
  have h5 : (payload ++ convert_to_varint 4 ++
      u32_to_le (calculate_crc32 payload)).take payload.length = payload := by
    rw [List.append_assoc]
    exact take_prefix_eq _ _ _ rfl
  unfold read_crc_finish
  rw [h2]
  simp only
  rw [if_neg (by omega)]
  rw [h3]
  simp only [List.take_succ_cons, List.take_zero]
  rw [u32_from_to_le _ hC, h5]
  unfold validate_crc32
  rw [if_neg (by simp)]

/-! # Lemmas: decoding an encoded frame (one lemma per operation shape) -/

theorem op_from_bytes_get (ts : Nat) (key : List Nat) (hts : ts < 2 ^ 64)
    (hkl : key.length < 2 ^ 64) (hkey : isValidUtf8 key = true) :
    op_from_bytes (frame_payload (.GET ts key) ++ convert_to_varint 4 ++
      u32_to_le (calculate_crc32 (frame_payload (.GET ts key)))) =
      some (.ok (.GET ts key)) := by
  set T := convert_to_varint ts with hT
  set K := convert_to_varint key.length with hK
  set P := frame_payload (Op.GET ts key) with hP
  set B := P ++ convert_to_varint 4 ++ u32_to_le (calculate_crc32 P) with hBdef
  have hB : B = 2 :: (T ++ (K ++ (key ++ (convert_to_varint 4 ++
      u32_to_le (calculate_crc32 P))))) := by
    rw [hBdef, hP, hT, hK]
    simp [frame_payload, PROTOCOL_VERSION, GET_OPERATION, List.append_assoc]
  have h_head : B.head? = some 2 := by rw [hB]; rfl
  have h_drop1 : B.drop 1 = T ++ (K ++ (key ++ (convert_to_varint 4 ++
      u32_to_le (calculate_crc32 P)))) := by rw [hB]; rfl
  have h_ts : convert_from_varint (B.drop 1) = some (ts, T.length) := by
    rw [h_drop1]
    exact convert_from_varint_append ts _ hts
  have h_dropK : B.drop (1 + T.length) = K ++ (key ++ (convert_to_varint 4 ++
      u32_to_le (calculate_crc32 P))) := by
    rw [hB, Nat.add_comm, List.drop_succ_cons]
    exact drop_prefix_eq T _ _ rfl
  have h_klen : convert_from_varint (B.drop (1 + T.length)) =
      some (key.length, K.length) := by
    rw [h_dropK]
    exact convert_from_varint_append _ _ hkl
  have hB2 : B = ((2 :: T) ++ K) ++ (key ++ (convert_to_varint 4 ++
      u32_to_le (calculate_crc32 P))) := by
    rw [hB]
    simp [List.append_assoc]
  have h_dropKey : B.drop (1 + T.length + K.length) = key ++ (convert_to_varint 4 ++
      u32_to_le (calculate_crc32 P)) := by
    rw [hB2]
    apply drop_prefix_eq
    simp [List.length_append]
    omega
  have h_key : (B.drop (1 + T.length + K.length)).take key.length = key := by
    rw [h_dropKey]
    exact take_prefix_eq _ _ _ rfl
  have hBlen : B.length = 1 + T.length + K.length + key.length + 5 := by
    rw [hB]
    simp [List.length_append, ctv_four, u32_to_le_length]
    omega
  have h_nb : ¬ (B.length < 1 + T.length + K.length + key.length) := by omega
  have hop1 : ¬ ((2 : Nat) &&& OPERATION_BITMASK = SET_OPERATION) := by decide
  have hop2 : (2 : Nat) &&& OPERATION_BITMASK = GET_OPERATION := by decide
  have hidx : 1 + T.length + K.length + key.length = P.length := by
    rw [hP, hT, hK]
    simp [frame_payload, List.length_append]
    omega
  unfold op_from_bytes
  simp only [h_head]
  simp only [h_ts]
  simp only [h_klen]
  rw [if_neg h_nb]
  simp only [h_key]
  rw [if_neg (by simp [hkey])]
  rw [if_neg hop1, if_pos hop2]
  rw [hidx, hBdef]
  exact read_crc_finish_ok P (Op.GET ts key)

theorem op_from_bytes_del (ts : Nat) (key : List Nat) (hts : ts < 2 ^ 64)
    (hkl : key.length < 2 ^ 64) (hkey : isValidUtf8 key = true) :
    op_from_bytes (frame_payload (.DEL ts key) ++ convert_to_varint 4 ++
      u32_to_le (calculate_crc32 (frame_payload (.DEL ts key)))) =
      some (.ok (.DEL ts key)) := by
  set T := convert_to_varint ts with hT
  set K := convert_to_varint key.length with hK
  set P := frame_payload (Op.DEL ts key) with hP
  set B := P ++ convert_to_varint 4 ++ u32_to_le (calculate_crc32 P) with hBdef
  have hB : B = 4 :: (T ++ (K ++ (key ++ (convert_to_varint 4 ++
      u32_to_le (calculate_crc32 P))))) := by
    rw [hBdef, hP, hT, hK]
    simp [frame_payload, PROTOCOL_VERSION, DEL_OPERATION, List.append_assoc]
  have h_head : B.head? = some 4 := by rw [hB]; rfl
  have h_drop1 : B.drop 1 = T ++ (K ++ (key ++ (convert_to_varint 4 ++
      u32_to_le (calculate_crc32 P)))) := by rw [hB]; rfl
  have h_ts : convert_from_varint (B.drop 1) = some (ts, T.length) := by
    rw [h_drop1]
    exact convert_from_varint_append ts _ hts
  have h_dropK : B.drop (1 + T.length) = K ++ (key ++ (convert_to_varint 4 ++
      u32_to_le (calculate_crc32 P))) := by
    rw [hB, Nat.add_comm, List.drop_succ_cons]
    exact drop_prefix_eq T _ _ rfl
  have h_klen : convert_from_varint (B.drop (1 + T.length)) =
      some (key.length, K.length) := by
    rw [h_dropK]
    exact convert_from_varint_append _ _ hkl
  have hB2 : B = ((4 :: T) ++ K) ++ (key ++ (convert_to_varint 4 ++
      u32_to_le (calculate_crc32 P))) := by
    rw [hB]
    simp [List.append_assoc]
  have h_dropKey : B.drop (1 + T.length + K.length) = key ++ (convert_to_varint 4 ++
      u32_to_le (calculate_crc32 P)) := by
    rw [hB2]
    apply drop_prefix_eq
    simp [List.length_append]
    omega
  have h_key : (B.drop (1 + T.length + K.length)).take key.length = key := by
    rw [h_dropKey]
    exact take_prefix_eq _ _ _ rfl
  have hBlen : B.length = 1 + T.length + K.length + key.length + 5 := by
    rw [hB]
    simp [List.length_append, ctv_four, u32_to_le_length]
    omega
  have h_nb : ¬ (B.length < 1 + T.length + K.length + key.length) := by omega
  have hop1 : ¬ ((4 : Nat) &&& OPERATION_BITMASK = SET_OPERATION) := by decide
  have hop2 : ¬ ((4 : Nat) &&& OPERATION_BITMASK = GET_OPERATION) := by decide
  have hop3 : (4 : Nat) &&& OPERATION_BITMASK = DEL_OPERATION := by decide
  have hidx : 1 + T.length + K.length + key.length = P.length := by
    rw [hP, hT, hK]
    simp [frame_payload, List.length_append]
    omega
  unfold op_from_bytes
  simp only [h_head]
  simp only [h_ts]
  simp only [h_klen]
  rw [if_neg h_nb]
  simp only [h_key]
  rw [if_neg (by simp [hkey])]
  rw [if_neg hop1, if_neg hop2, if_pos hop3]
  rw [hidx, hBdef]
  exact read_crc_finish_ok P (Op.DEL ts key)

theorem op_from_bytes_set (ts : Nat) (key value : List Nat) (hts : ts < 2 ^ 64)
    (hkl : key.length < 2 ^ 64) (hkey : isValidUtf8 key = true)
    (hvl : value.length < 2 ^ 64) (hvalue : isValidUtf8 value = true) :
    op_from_bytes (frame_payload (.SET ts key value) ++ convert_to_varint 4 ++
      u32_to_le (calculate_crc32 (frame_payload (.SET ts key value)))) =
      some (.ok (.SET ts key value)) := by
  set T := convert_to_varint ts with hT
  set K := convert_to_varint key.length with hK
  set V := convert_to_varint value.length with hV
  set P := frame_payload (Op.SET ts key value) with hP
  set B := P ++ convert_to_varint 4 ++ u32_to_le (calculate_crc32 P) with hBdef
  have hB : B = 1 :: (T ++ (K ++ (key ++ (V ++ (value ++ (convert_to_varint 4 ++
      u32_to_le (calculate_crc32 P))))))) := by
    rw [hBdef, hP, hT, hK, hV]
    simp [frame_payload, PROTOCOL_VERSION, SET_OPERATION, List.append_assoc]
  have h_head : B.head? = some 1 := by rw [hB]; rfl
  have h_drop1 : B.drop 1 = T ++ (K ++ (key ++ (V ++ (value ++ (convert_to_varint 4 ++
      u32_to_le (calculate_crc32 P)))))) := by rw [hB]; rfl
  have h_ts : convert_from_varint (B.drop 1) = some (ts, T.length) := by
    rw [h_drop1]
    exact convert_from_varint_append ts _ hts
  have h_dropK : B.drop (1 + T.length) = K ++ (key ++ (V ++ (value ++
      (convert_to_varint 4 ++ u32_to_le (calculate_crc32 P))))) := by
    rw [hB, Nat.add_comm, List.drop_succ_cons]
    exact drop_prefix_eq T _ _ rfl
  have h_klen : convert_from_varint (B.drop (1 + T.length)) =
      some (key.length, K.length) := by
    rw [h_dropK]
    exact convert_from_varint_append _ _ hkl
  have hB2 : B = ((1 :: T) ++ K) ++ (key ++ (V ++ (value ++ (convert_to_varint 4 ++
      u32_to_le (calculate_crc32 P))))) := by
    rw [hB]
    simp [List.append_assoc]
  have h_dropKey : B.drop (1 + T.length + K.length) = key ++ (V ++ (value ++
      (convert_to_varint 4 ++ u32_to_le (calculate_crc32 P)))) := by
    rw [hB2]
    apply drop_prefix_eq
    simp [List.length_append]
    omega
  have h_key : (B.drop (1 + T.length + K.length)).take key.length = key := by
    rw [h_dropKey]
    exact take_prefix_eq _ _ _ rfl
  have hB3 : B = (((1 :: T) ++ K) ++ key) ++ (V ++ (value ++ (convert_to_varint 4 ++
      u32_to_le (calculate_crc32 P)))) := by
    rw [hB]
    simp [List.append_assoc]
  have h_dropV : B.drop (1 + T.length + K.length + key.length) = V ++ (value ++
      (convert_to_varint 4 ++ u32_to_le (calculate_crc32 P))) := by
    rw [hB3]
    apply drop_prefix_eq
    simp [List.length_append]
    omega
  have h_vlen : convert_from_varint (B.drop (1 + T.length + K.length + key.length)) =
      some (value.length, V.length) := by
    rw [h_dropV]
    exact convert_from_varint_append _ _ hvl
  have hB4 : B = ((((1 :: T) ++ K) ++ key) ++ V) ++ (value ++ (convert_to_varint 4 ++
      u32_to_le (calculate_crc32 P))) := by
    rw [hB]
    simp [List.append_assoc]
  have h_dropValue : B.drop (1 + T.length + K.length + key.length + V.length) =
      value ++ (convert_to_varint 4 ++ u32_to_le (calculate_crc32 P)) := by
    rw [hB4]
    apply drop_prefix_eq
    simp [List.length_append]
    omega
  have h_value : (B.drop (1 + T.length + K.length + key.length + V.length)).take
      value.length = value := by
    rw [h_dropValue]
    exact take_prefix_eq _ _ _ rfl
  have hBlen : B.length =
      1 + T.length + K.length + key.length + V.length + value.length + 5 := by
    rw [hB]
    simp [List.length_append, ctv_four, u32_to_le_length]
    omega
  have h_nb : ¬ (B.length < 1 + T.length + K.length + key.length) := by omega
  have h_nb2 : ¬ (B.length <
      1 + T.length + K.length + key.length + V.length + value.length) := by omega
  have hop1 : (1 : Nat) &&& OPERATION_BITMASK = SET_OPERATION := by decide
  have hidx : 1 + T.length + K.length + key.length + V.length + value.length =
      P.length := by
    rw [hP, hT, hK, hV]
    simp [frame_payload, List.length_append]
    omega
  unfold op_from_bytes
  simp only [h_head]
  simp only [h_ts]
  simp only [h_klen]
  rw [if_neg h_nb]
  simp only [h_key]
  rw [if_neg (by simp [hkey])]
  rw [if_pos hop1]
  simp only [h_vlen]
  rw [if_neg h_nb2]
  simp only [h_value]
  rw [if_neg (by simp [hvalue])]
  rw [hidx, hBdef]
  exact read_crc_finish_ok P (Op.SET ts key value)

/-! # Lemmas: the parser loop on grammatical requests -/

theorem parse_stmt_step (s : Statement) (ts : List Token) (acc : List Op) :
    parse_loop (s.tokens ++ ts) StateMachine.new acc =
      parse_loop ts (smEnd s) (acc ++ [s.op]) := by
  cases s <;> rfl

theorem parse_and_step (s : Statement) (ts : List Token) (acc : List Op) :
    parse_loop (Token.AND :: ts) (smEnd s) acc = parse_loop ts StateMachine.new acc := by
  cases s <;> rfl

theorem parse_loop_request (stmts : List Statement) :
    ∀ (s : Statement) (acc : List Op),
      parse_loop (s.tokens ++ requestTokensTail stmts) StateMachine.new acc =
        .ok (acc ++ s.op :: stmts.map Statement.op) := by
  induction stmts with
  | nil =>
    intro s acc
    rw [requestTokensTail, parse_stmt_step]
    simp [parse_loop]
  | cons s2 rest ih =>
    intro s acc
    rw [requestTokensTail, parse_stmt_step, List.cons_append, parse_and_step,
      ih s2 (acc ++ [s.op])]
    simp

/-! # Claim theorems -/

/-- C1: encoding any SET, GET or DEL operation (64-bit timestamp pattern,
UTF-8 key, and for SET a UTF-8 value) with `op_to_bytes` and then decoding the
frame with START_MAGIC and END_MAGIC stripped via `op_from_bytes` returns
`Ok` of the same operation; in particular the embedded CRC validates. -/
theorem claim_C1 (op : Op) (h : opWellFormed op) :
    op_from_bytes (stripFrame (op_to_bytes op)) = some (.ok op) := by
  rw [op_to_bytes_eq op, stripFrame_frame]
  cases op with
  | SET ts key value =>
    exact op_from_bytes_set ts key value h.1 h.2.1 h.2.2.1 h.2.2.2.1 h.2.2.2.2
  | GET ts key => exact op_from_bytes_get ts key h.1 h.2.1 h.2.2
  | DEL ts key => exact op_from_bytes_del ts key h.1 h.2.1 h.2.2

/-- Witness for C1 at the concrete GET of the specification scenario. -/
theorem claim_C1_witness :
    op_from_bytes (stripFrame (op_to_bytes (.GET 1234567890 [107, 101, 121]))) =
      some (.ok (.GET 1234567890 [107, 101, 121])) :=
  claim_C1 (.GET 1234567890 [107, 101, 121]) (by decide)

/-- C9: the WAL service loop never writes a GET to the I/O writer; the byte
sequences written are exactly the encodings of the SET and DEL operations
received, in order. -/
theorem claim_C9 (ops : List Op) :
    WAL_run_writes ops = (ops.filter fun op => op.isSET || op.isDEL).map op_to_bytes := by
  induction ops with
  | nil => rfl
  | cons op rest ih =>
    cases op <;>
      simp [WAL_run_writes, Op.isSET, Op.isDEL, List.filter_cons, ih]

/-- C10: a request conforming to the grammar (statements SET key TO value,
GET key, DEL key, separated by AND) parses to exactly one operation per
statement in statement order with the statement data; a request with zero
operations (the empty token stream) is an error. -/
theorem claim_C10 :
    (∀ stmts : List Statement, stmts ≠ [] →
      parse (requestTokens stmts) = .ok (stmts.map Statement.op)) ∧
    parse [] = .error .noValidOperations := by
  constructor
  · intro stmts hne
    cases stmts with
    | nil => exact absurd rfl hne
    | cons s rest =>
      rw [requestTokens]
      unfold parse
      rw [parse_loop_request rest s []]
      simp
  · rfl

/-- Witness for C10 at a concrete one-statement request. -/
theorem claim_C10_witness :
    parse (requestTokens [Statement.get [107]]) = .ok [Op.GET 0 [107]] := by
  have h := claim_C10.1 [Statement.get [107]] (by decide)
  simpa using h

/-- C2: code-bug evaluation.  With segments `wal_100` (holding one byte) and
tail `wal_200` (empty), the byte stream that `WAL::recover` hands to
`KvStore::regenerate` is the tail's content `[]` only, while the
specification-mandated recovery stream (all segments concatenated in
ascending filename order) is `[1]`: the older segment is never replayed. -/
theorem claim_C2 :
    (WAL.new twoSegmentDir 5242880 999).toOption.map
        (fun p => WAL.recover p.1 p.2) = some [] ∧
      spec_recovery_stream twoSegmentDir = [1] := by
  decide

/-- C3: code-bug evaluation.  With the tail `wal_100` at the size limit,
`size_rotate` does create `wal_200` and return `Some(handle)`, but the handle
re-opens the old tail `wal_100` (read-only, via `File::open`), because
`rotate` never updates `latest_file`; `get_latest_file` also still names the
old segment.  Below the limit it returns `None`. -/
theorem claim_C3 :
    ((WALFileManager.new tailAtLimitDir 5 100).1.size_rotate tailAtLimitDir 200).1 =
        .ok (some { name := walFileName 100, readable := true, writable := false }) ∧
      walFileName 200 ∈
        ((WALFileManager.new tailAtLimitDir 5 100).1.size_rotate tailAtLimitDir
          200).2.1.wal_dir_files ∧
      ((WALFileManager.new tailAtLimitDir 5 100).1.size_rotate tailAtLimitDir
          200).2.1.get_latest_file ≠ walFileName 200 ∧
      ((WALFileManager.new tailAtLimitDir 9999 100).1.size_rotate tailAtLimitDir 200).1 =
        .ok none := by
  decide

/-- C4: code-bug evaluation.  On the freshly initialized header
(`lower = 12 ≤ upper = 8191`, a consistent page), `is_space_to_write`
evaluates `lower - upper` in `u16`, which underflows: a debug build panics
(`none`); the claim instead requires `some` of `upper - lower ≥ n`. -/
theorem claim_C4 :
    Block.init_header.lower ≤ Block.init_header.upper ∧
      Header.is_space_to_write Block.init_header 10000 = none := by
  decide

/-- C6: code-bug evaluation.  On the truncated input `[0x02]` (a bare GET
header byte) `op_from_bytes` panics (`none`): `convert_from_varint` indexes
past the end of the empty timestamp slice instead of returning a decoding
error.  The completely empty input does return an error, as the claim says. -/
theorem claim_C6 :
    op_from_bytes [2] = none ∧ op_from_bytes [] = some (.error .noHeader) := by
  decide

/-- C7: code-bug evaluation.  On ten continuation bytes followed by `0x01`
the decoder's shift reaches 70 and the uncapped `<< shift` panics in a debug
build (`none`) instead of returning a `VarintOverflow` error; the single zero
byte is decoded with `consumed = 1`, as the claim says. -/
theorem claim_C7 :
    convert_from_varint (List.replicate 10 128 ++ [1]) = none ∧
      convert_from_varint [0] = some (0, 1) := by
  decide

/-- C8: code-bug evaluation.  `split_to_chunks` returns no chunks on the
empty input, but on inputs of length 1, 2 or 3 the loop bound
`bytes.len() - 4` underflows `usize` and the function panics (`none`) instead
of returning no chunks. -/
theorem claim_C8 :
    split_to_chunks [] = some [] ∧ split_to_chunks [0] = none ∧
      split_to_chunks [0, 0] = none ∧ split_to_chunks [0, 0, 0] = none := by
  decide

/-- Counterexample to C5 as stated: the single frame encoding
`GET{timestamp = 467641453, key = "k"}` has a timestamp varint equal to the
START_MAGIC byte sequence, so the splitter resets its start marker inside the
payload and the one chunk it returns differs from the frame's payload. -/
theorem claim_C5_counterexample :
    split_to_chunks (op_to_bytes (.GET 467641453 [107])) ≠
      some [stripFrame (op_to_bytes (.GET 467641453 [107]))] := by
  decide

/-! # Lemmas: the chunk splitter -/

theorem smb_lit : START_MAGIC_BYTES = [237, 200, 254, 222] := rfl

theorem emb_lit : END_MAGIC_BYTES = [229, 177, 0, 11] := rfl

theorem split_go_short (bytes suffix : List Nat) (index start : Nat)
    (chunks : List (List Nat)) (h : suffix.length < 4) :
    split_go bytes suffix index start chunks = some chunks := by
  match suffix with
  | [] => rfl
  | [_] => rfl
  | [_, _] => rfl
  | [_, _, _] => rfl
  | _ :: _ :: _ :: _ :: tl => simp at h; omega

theorem split_go_cons_eq (bytes : List Nat) (b0 b1 b2 b3 : Nat) (tl : List Nat)
    (index start : Nat) (chunks : List (List Nat)) :
    split_go bytes (b0 :: b1 :: b2 :: b3 :: tl) index start chunks =
      (if [b0, b1, b2, b3] = END_MAGIC_BYTES ∧
          (if [b0, b1, b2, b3] = START_MAGIC_BYTES then index + 4 else start) ≠ 0 then
        if index < (if [b0, b1, b2, b3] = START_MAGIC_BYTES then index + 4 else start) then
          none
        else
          split_go bytes (b1 :: b2 :: b3 :: tl) (index + 1)
            (if [b0, b1, b2, b3] = START_MAGIC_BYTES then index + 4 else start)
            (chunks ++
              [(bytes.drop
                  (if [b0, b1, b2, b3] = START_MAGIC_BYTES then index + 4 else start)).take
                (index -
                  (if [b0, b1, b2, b3] = START_MAGIC_BYTES then index + 4 else start))])
      else
        split_go bytes (b1 :: b2 :: b3 :: tl) (index + 1)
          (if [b0, b1, b2, b3] = START_MAGIC_BYTES then index + 4 else start) chunks) :=
  rfl

theorem drop_window_cons (bytes : List Nat) (index : Nat)
    (h : ¬ (bytes.drop index).length < 4) :
    ∃ b0 b1 b2 b3 tl, bytes.drop index = b0 :: b1 :: b2 :: b3 :: tl ∧
      windowAt bytes index = [b0, b1, b2, b3] ∧
      bytes.drop (index + 1) = b1 :: b2 :: b3 :: tl := by
  rcases hsuf : bytes.drop index with _ | ⟨b0, _ | ⟨b1, _ | ⟨b2, _ | ⟨b3, tl⟩⟩⟩⟩ <;>
    rw [hsuf] at h
  · simp at h
  · simp at h
  · simp at h
  · simp at h
  · refine ⟨b0, b1, b2, b3, tl, rfl, ?_, ?_⟩
    · unfold windowAt
      rw [hsuf]
      rfl
    · rw [← List.drop_drop 1 index bytes, hsuf]
      rfl

theorem split_go_step_no_event (bytes : List Nat) (index start : Nat)
    (chunks : List (List Nat))
    (hsm : windowAt bytes index ≠ START_MAGIC_BYTES)
    (hem : windowAt bytes index ≠ END_MAGIC_BYTES) :
    split_go bytes (bytes.drop index) index start chunks =
      split_go bytes (bytes.drop (index + 1)) (index + 1) start chunks := by
  by_cases hlen : (bytes.drop index).length < 4
  · rw [split_go_short _ _ _ _ _ hlen, split_go_short]
    rw [List.length_drop] at hlen ⊢
    omega
  · obtain ⟨b0, b1, b2, b3, tl, hsuf, hw, hnext⟩ := drop_window_cons bytes index hlen
    rw [hsuf, split_go_cons_eq, ← hw, if_neg hsm,
      if_neg (fun hc => hem hc.1), hnext]

theorem split_go_sm_event (bytes : List Nat) (index start : Nat)
    (chunks : List (List Nat)) (hw : windowAt bytes index = START_MAGIC_BYTES) :
    split_go bytes (bytes.drop index) index start chunks =
      split_go bytes (bytes.drop (index + 1)) (index + 1) (index + 4) chunks := by
  have hlen : ¬ (bytes.drop index).length < 4 := by
    have hl := congrArg List.length hw
    unfold windowAt at hl
    rw [List.length_take, smb_lit] at hl
    simp only [List.length_cons, List.length_nil] at hl
    omega
  obtain ⟨b0, b1, b2, b3, tl, hsuf, hw4, hnext⟩ := drop_window_cons bytes index hlen
  have hne : START_MAGIC_BYTES ≠ END_MAGIC_BYTES := by decide
  rw [hsuf, split_go_cons_eq, ← hw4, hw, if_pos rfl,
    if_neg (fun hc => hne hc.1), hnext]

theorem split_go_em_event (bytes : List Nat) (index start : Nat)
    (chunks : List (List Nat)) (hw : windowAt bytes index = END_MAGIC_BYTES)
    (hstart : start ≠ 0) (hle : start ≤ index) :
    split_go bytes (bytes.drop index) index start chunks =
      split_go bytes (bytes.drop (index + 1)) (index + 1) start
        (chunks ++ [(bytes.drop start).take (index - start)]) := by
  have hlen : ¬ (bytes.drop index).length < 4 := by
    have hl := congrArg List.length hw
    unfold windowAt at hl
    rw [List.length_take, emb_lit] at hl
    simp only [List.length_cons, List.length_nil] at hl
    omega
  obtain ⟨b0, b1, b2, b3, tl, hsuf, hw4, hnext⟩ := drop_window_cons bytes index hlen
  have hne : END_MAGIC_BYTES ≠ START_MAGIC_BYTES := by decide
  rw [hsuf, split_go_cons_eq, ← hw4, hw, if_neg hne,
    if_pos ⟨rfl, hstart⟩, if_neg (by omega), hnext]

theorem split_go_region (bytes : List Nat) (start : Nat) (chunks : List (List Nat)) :
    ∀ n index : Nat,
      (∀ j, index ≤ j → j < index + n → windowAt bytes j ≠ START_MAGIC_BYTES ∧
        windowAt bytes j ≠ END_MAGIC_BYTES) →
      split_go bytes (bytes.drop index) index start chunks =
        split_go bytes (bytes.drop (index + n)) (index + n) start chunks := by
  intro n
  induction n with
  | zero => intro index _; rfl
  | succ n ih =>
    intro index h
    have h0 := h index le_rfl (by omega)
    rw [split_go_step_no_event bytes index start chunks h0.1 h0.2]
    have hstep := ih (index + 1) (fun j hj1 hj2 => h j (by omega) (by omega))
    rw [hstep]
    have he : index + 1 + n = index + (n + 1) := by omega
    rw [he]

theorem take4_cons (a : Nat) (l : List Nat) : (a :: l).take 4 = a :: l.take 3 := rfl

theorem take4_cons_ne_of_head (a b : Nat) (l m : List Nat) (h : a ≠ b) :
    (a :: l).take 4 ≠ b :: m := by
  rw [take4_cons]
  simp [h]

theorem window_ne_magics_of_head (a : Nat) (l : List Nat)
    (h1 : a ≠ 237) (h2 : a ≠ 229) :
    (a :: l).take 4 ≠ START_MAGIC_BYTES ∧ (a :: l).take 4 ≠ END_MAGIC_BYTES :=
  ⟨by rw [smb_lit]; exact take4_cons_ne_of_head _ _ _ _ h1,
   by rw [emb_lit]; exact take4_cons_ne_of_head _ _ _ _ h2⟩

theorem magicFree_window (p : List Nat) (h : magicFree p = true) (k : Nat) :
    (p.drop k).take 4 ≠ START_MAGIC_BYTES ∧ (p.drop k).take 4 ≠ END_MAGIC_BYTES := by
  by_cases hk : k < p.length
  · have hall := List.all_eq_true.mp h k (List.mem_range.mpr hk)
    simp only [Bool.and_eq_true, decide_eq_true_eq] at hall
    exact hall
  · have hnil : p.drop k = [] := List.drop_eq_nil_of_le (by omega)
    rw [hnil]
    exact ⟨by decide, by decide⟩

theorem split_go_frames (bytes : List Nat) (payloads : List (List Nat)) :
    ∀ (index start : Nat) (chunks : List (List Nat)),
      (∀ p ∈ payloads, magicFree p = true) →
      bytes.drop index = framesConcat payloads →
      split_go bytes (bytes.drop index) index start chunks =
        some (chunks ++ payloads) := by
  induction payloads with
  | nil =>
    intro index start chunks _ hdrop
    rw [split_go_short]
    · simp
    · rw [hdrop]
      simp [framesConcat]
  | cons p rest ih =>
    intro index start chunks hmf hdrop
    have hmfp : magicFree p = true := hmf p (by simp)
    have hmfr : ∀ q ∈ rest, magicFree q = true := fun q hq => hmf q (by simp [hq])
    have hflat : bytes.drop index =
        START_MAGIC_BYTES ++ (p ++ (END_MAGIC_BYTES ++ framesConcat rest)) := by
      rw [hdrop]
      simp [framesConcat, frameOf, List.append_assoc]
    have hd4 : bytes.drop (index + 4) =
        p ++ (END_MAGIC_BYTES ++ framesConcat rest) := by
      rw [← List.drop_drop 4 index bytes, hflat, drop4_magic]
    have hdE : bytes.drop (index + 4 + p.length) =
        END_MAGIC_BYTES ++ framesConcat rest := by
      rw [← List.drop_drop p.length (index + 4) bytes, hd4]
      exact drop_prefix_eq _ _ _ rfl
    have hd8 : bytes.drop (index + 4 + p.length + 4) = framesConcat rest := by
      rw [← List.drop_drop 4 (index + 4 + p.length) bytes, hdE, emb_lit]
      rfl
    have hwA : windowAt bytes index = START_MAGIC_BYTES := by
      unfold windowAt
      rw [hflat]
      exact take_prefix_eq _ _ _ rfl
    rw [split_go_sm_event bytes index start chunks hwA]
    have hregB : ∀ j, index + 1 ≤ j → j < index + 1 + 3 →
        windowAt bytes j ≠ START_MAGIC_BYTES ∧ windowAt bytes j ≠ END_MAGIC_BYTES := by
      intro j hj1 hj2
      have hcases : j = index + 1 ∨ j = index + 2 ∨ j = index + 3 := by omega
      rcases hcases with rfl | rfl | rfl
      · have hw : windowAt bytes (index + 1) =
            (200 :: ([254, 222] ++ (p ++ (END_MAGIC_BYTES ++ framesConcat rest)))).take 4 := by
          unfold windowAt
          rw [← List.drop_drop 1 index bytes, hflat, smb_lit]
          rfl
        rw [hw]
        exact window_ne_magics_of_head _ _ (by decide) (by decide)
      · have hw : windowAt bytes (index + 2) =
            (254 :: ([222] ++ (p ++ (END_MAGIC_BYTES ++ framesConcat rest)))).take 4 := by
          unfold windowAt
          rw [← List.drop_drop 2 index bytes, hflat, smb_lit]
          rfl
        rw [hw]
        exact window_ne_magics_of_head _ _ (by decide) (by decide)
      · have hw : windowAt bytes (index + 3) =
            (222 :: (p ++ (END_MAGIC_BYTES ++ framesConcat rest))).take 4 := by
          unfold windowAt
          rw [← List.drop_drop 3 index bytes, hflat, smb_lit]
          rfl
        rw [hw]
        exact window_ne_magics_of_head _ _ (by decide) (by decide)
    rw [split_go_region bytes (index + 4) chunks 3 (index + 1) hregB]
    rw [show index + 1 + 3 = index + 4 from by omega]
    have hregC : ∀ j, index + 4 ≤ j → j < index + 4 + p.length →
        windowAt bytes j ≠ START_MAGIC_BYTES ∧ windowAt bytes j ≠ END_MAGIC_BYTES := by
      intro j hj1 hj2
      obtain ⟨k, rfl⟩ : ∃ k, j = index + 4 + k := ⟨j - (index + 4), by omega⟩
      have hklt : k < p.length := by omega
      have hwj : windowAt bytes (index + 4 + k) =
          ((p ++ (END_MAGIC_BYTES ++ framesConcat rest)).drop k).take 4 := by
        unfold windowAt
        rw [← List.drop_drop k (index + 4) bytes, hd4]
      rw [hwj, List.drop_append_of_le_length (by omega)]
      by_cases hbig : 4 ≤ (p.drop k).length
      · rw [List.take_append_of_le_length hbig]
        exact magicFree_window p hmfp k
      · have hlend : (p.drop k).length = p.length - k := List.length_drop k p
        rcases hq : p.drop k with _ | ⟨x, _ | ⟨y, _ | ⟨z, w⟩⟩⟩
        · rw [hq] at hlend
          simp at hlend
          omega
        · rw [emb_lit]
          rw [show List.take 4 ([x] ++ ([229, 177, 0, 11] ++ framesConcat rest)) =
            [x, 229, 177, 0] from rfl]
          rw [smb_lit]
          constructor <;> simp
        · rw [emb_lit]
          rw [show List.take 4 ([x, y] ++ ([229, 177, 0, 11] ++ framesConcat rest)) =
            [x, y, 229, 177] from rfl]
          rw [smb_lit]
          constructor <;> simp
        · have hw0 : w = [] := by
            rw [hq, List.length_cons, List.length_cons, List.length_cons] at hbig
            have hwl : w.length = 0 := by omega
            exact List.length_eq_zero.mp hwl
          subst hw0
          rw [emb_lit]
          rw [show List.take 4 ([x, y, z] ++ ([229, 177, 0, 11] ++ framesConcat rest)) =
            [x, y, z, 229] from rfl]
          rw [smb_lit]
          constructor <;> simp
    rw [split_go_region bytes (index + 4) chunks p.length (index + 4) hregC]
    have hwD : windowAt bytes (index + 4 + p.length) = END_MAGIC_BYTES := by
      unfold windowAt
      rw [hdE]
      exact take_prefix_eq _ _ _ rfl
    rw [split_go_em_event bytes (index + 4 + p.length) (index + 4) chunks hwD
      (by omega) (by omega)]
    rw [show index + 4 + p.length - (index + 4) = p.length from by omega]
    rw [hd4, take_prefix_eq p (END_MAGIC_BYTES ++ framesConcat rest) p.length rfl]
    have hregE : ∀ j, index + 4 + p.length + 1 ≤ j → j < index + 4 + p.length + 1 + 3 →
        windowAt bytes j ≠ START_MAGIC_BYTES ∧ windowAt bytes j ≠ END_MAGIC_BYTES := by
      intro j hj1 hj2
      have hcases : j = index + 4 + p.length + 1 ∨ j = index + 4 + p.length + 2 ∨
          j = index + 4 + p.length + 3 := by omega
      rcases hcases with rfl | rfl | rfl
      · have hw : windowAt bytes (index + 4 + p.length + 1) =
            (177 :: ([0, 11] ++ framesConcat rest)).take 4 := by
          unfold windowAt
          rw [← List.drop_drop 1 (index + 4 + p.length) bytes, hdE, emb_lit]
          rfl
        rw [hw]
        exact window_ne_magics_of_head _ _ (by decide) (by decide)
      · have hw : windowAt bytes (index + 4 + p.length + 2) =
            (0 :: ([11] ++ framesConcat rest)).take 4 := by
          unfold windowAt
          rw [← List.drop_drop 2 (index + 4 + p.length) bytes, hdE, emb_lit]
          rfl
        rw [hw]
        exact window_ne_magics_of_head _ _ (by decide) (by decide)
      · have hw : windowAt bytes (index + 4 + p.length + 3) =
            (11 :: framesConcat rest).take 4 := by
          unfold windowAt
          rw [← List.drop_drop 3 (index + 4 + p.length) bytes, hdE, emb_lit]
          rfl
        rw [hw]
        exact window_ne_magics_of_head _ _ (by decide) (by decide)
    rw [split_go_region bytes (index + 4) (chunks ++ [p]) 3 (index + 4 + p.length + 1) hregE]
    rw [show index + 4 + p.length + 1 + 3 = index + 4 + p.length + 4 from by omega]
    rw [ih (index + 4 + p.length + 4) (index + 4) (chunks ++ [p]) hmfr hd8]
    simp

/-- C5 (amended): for every byte sequence formed by concatenating k complete
frames (START_MAGIC ++ payload ++ END_MAGIC) whose payloads contain no
occurrence of the START_MAGIC or END_MAGIC byte sequence, `split_to_chunks`
returns exactly the k payloads in their original order.  (The proviso is
forced: an encoder-produced frame may embed a magic sequence inside its
timestamp varint or CRC bytes, and the splitter then returns a wrong chunk,
see the counterexample.) -/
theorem claim_C5 (payloads : List (List Nat))
    (h : ∀ p ∈ payloads, magicFree p = true) :
    split_to_chunks (framesConcat payloads) = some payloads := by
  cases payloads with
  | nil => rfl
  | cons p rest =>
    unfold split_to_chunks
    have hlen : (framesConcat (p :: rest)).length =
        8 + p.length + (framesConcat rest).length := by
      simp [framesConcat, frameOf, List.length_append, smb_lit, emb_lit]
      omega
    rw [if_neg (by omega), if_neg (by omega)]
    have hsg := split_go_frames (framesConcat (p :: rest)) (p :: rest) 0 0 [] h
      (List.drop_zero _)
    rw [List.drop_zero] at hsg
    rw [hsg]
    simp

/-- Witness for the amended C5 at two concrete magic-free payloads. -/
theorem claim_C5_witness :
    split_to_chunks (framesConcat [[1, 2, 3], [247]]) = some [[1, 2, 3], [247]] :=
  claim_C5 [[1, 2, 3], [247]] (by decide)

end Databased
